import Mathlib

/-!
# ddbt: schema generation, DAG isolation and the `not_null` test macro

A shallow embedding of

* `cmd/schema_gen.go` (`generateEmptySchemaFile`, `addMissingColumnsToSchema`,
  `removeOutdatedColumnsFromSchema`, `FindColumnInSchema`, `FindSchemaColumnInSlice`),
* `cmd/isolateDAG.go` (the closures `symLink` and `touch` and the per-node action that
  `isolateGraph` hands to `graph.Execute`),
* `schemaTestMacros/test_not_null_macro.go` (`Test_not_null_macro`),

followed by the properties established about them.

Go strings are Lean `String`s.  Go loops over slices are folds over lists, in the order of the
slice.  A Go `error` result is an `Option`: `none` is `nil`.
-/

set_option autoImplicit false

namespace Ddbt

/-! ## The parts of the Go standard library that the sources call -/

/-- Go `fmt.Sprintf` on the character level, for a format whose only verbs are `%s` (each one
consumes the next string operand) and `%%`.  A `%s` without an operand prints Go's
`%!s(MISSING)`; what Go prints for operands that are left over is not modelled. -/
def sprintfAux : List Char → List String → List Char
  | [], _ => []
  | '%' :: 's' :: rest, a :: args => a.data ++ sprintfAux rest args
  | '%' :: 's' :: rest, [] => "%!s(MISSING)".data ++ sprintfAux rest []
  | '%' :: '%' :: rest, args => '%' :: sprintfAux rest args
  | c :: rest, args => c :: sprintfAux rest args

/-- Go `fmt.Sprintf(format, args...)` for string operands. -/
def Sprintf (format : String) (args : List String) : String :=
  ⟨sprintfAux format.data args⟩

/-- Go `strings.Replace(s, old, new, n)` on the character level, for `n ≥ 0`: the first `n`
occurrences of `old` that do not overlap are replaced by `new`, from the left; an empty `old`
matches before each character and at the end.  The second number counts the characters of a
replaced occurrence that are still to be dropped. -/
def replaceAux (old new : List Char) : Nat → Nat → List Char → List Char
  | _, _ + 1, [] => []
  | n, skip + 1, _ :: cs => replaceAux old new n skip cs
  | 0, 0, s => s
  | _ + 1, 0, [] => if old = [] then new else []
  | n + 1, 0, c :: cs =>
    if old.isPrefixOf (c :: cs) then
      match old.length with
      | 0 => new ++ c :: replaceAux old new n 0 cs
      | k + 1 => new ++ replaceAux old new n k cs
    else c :: replaceAux old new (n + 1) 0 cs

/-- Go `strings.Replace(s, old, new, n)` for `n ≥ 0`. -/
def Replace (s old new : String) (n : Nat) : String :=
  ⟨replaceAux old.data new.data n 0 s.data⟩

/-- Go `filepath.Ext` scanning the path from its last character backwards: the scan stops at a
path separator (no extension) or at the first dot met, which starts the extension.  The first
argument is the part of the path not yet scanned, reversed; the second is what was scanned. -/
def extAux : List Char → List Char → List Char
  | [], _ => []
  | c :: cs, seen =>
    if c = '/' then []
    else if c = '.' then '.' :: seen
    else extAux cs (c :: seen)

/-- Go `filepath.Ext(path)`: the suffix beginning at the final dot in the final element of
`path`; empty if there is no dot. -/
def Ext (path : String) : String :=
  ⟨extAux path.data.reverse []⟩

/-- Go `strings.TrimSuffix(s, suffix)`. -/
def TrimSuffix (s suffix : String) : String :=
  if suffix.data.isSuffixOf s.data then ⟨s.data.take (s.data.length - suffix.data.length)⟩
  else s

/-! ## `schemaTestMacros/test_not_null_macro.go` -/

/-- The function `Test_not_null_macro`: the query and the name of the test. -/
def Test_not_null_macro (project dataset model column_name : String) : String × String :=
  (Sprintf "select count(*) \n\tfrom %s.%s.%s where %s is null\n\t"
    [project, dataset, model, column_name], "not_null")

/-! ## `cmd/schema_gen.go`

The types of the package `properties` are declared in another package of the repository.  The
code reads and writes the fields below; whatever else a column carries (description, tests, ...)
is the field `rest` of a type parameter `μ`, whose `default` is the Go zero value.  The other
fields of a model, which the functions here never touch, are left out. -/

/-- The type `properties.Column`: the name of the column and its other fields. -/
structure Column (μ : Type) where
  Name : String
  rest : μ

/-- The type `properties.Model`, a schema model. -/
structure Model (μ : Type) where
  Name : String
  Description : String
  Columns : List (Column μ)

/-- The type `properties.File`, a schema file. -/
structure SchemaFile (μ : Type) where
  Version : Nat
  Models : List (Model μ)

/-- The function `FindColumnInSchema`: the loop returns at the first column with the name. -/
def findColumnLoop {μ : Type} (column : String) : List (Column μ) → Bool
  | [] => false
  | schemacol :: rest => if schemacol.Name = column then true else findColumnLoop column rest

/-- The function `FindColumnInSchema`. -/
def FindColumnInSchema {μ : Type} (column : String) (schema : Model μ) : Bool :=
  findColumnLoop column schema.Columns

/-- The function `FindSchemaColumnInSlice`. -/
def FindSchemaColumnInSlice {μ : Type} (column : Column μ) : List String → Bool
  | [] => false
  | col :: rest => if column.Name = col then true else FindSchemaColumnInSlice column rest

/-- One round of the loop of `addMissingColumnsToSchema`, on the pair of the schema model and
`columnsAdded`. -/
def addMissingStep {μ : Type} [Inhabited μ] (acc : Model μ × List String) (bqCol : String) :
    Model μ × List String :=
  if FindColumnInSchema bqCol acc.1 then acc
  else
    let column : Column μ := { Name := bqCol, rest := default }
    ({ acc.1 with Columns := acc.1.Columns ++ [column] }, acc.2 ++ [bqCol])

/-- The function `addMissingColumnsToSchema`: the schema model after the call, and the list
`columnsAdded` that it prints. -/
def addMissingColumnsToSchema {μ : Type} [Inhabited μ] (schemaModel : Model μ)
    (bqColumns : List String) : Model μ × List String :=
  bqColumns.foldl addMissingStep (schemaModel, [])

/-- One round of the loop of `removeOutdatedColumnsFromSchema`, on the pair of `columnsRemoved`
and `columnsKept`. -/
def removeOutdatedStep {μ : Type} (bqColumns : List String)
    (acc : List String × List (Column μ)) (schemaCol : Column μ) :
    List String × List (Column μ) :=
  if FindSchemaColumnInSlice schemaCol bqColumns then (acc.1, acc.2 ++ [schemaCol])
  else (acc.1 ++ [schemaCol.Name], acc.2)

/-- The function `removeOutdatedColumnsFromSchema`: the schema model after the call, and the list
`columnsRemoved` that it prints. -/
def removeOutdatedColumnsFromSchema {μ : Type} (schemaModel : Model μ)
    (bqColumns : List String) : Model μ × List String :=
  let r := schemaModel.Columns.foldl (removeOutdatedStep bqColumns) ([], [])
  ({ schemaModel with Columns := r.2 }, r.1)

/-- The update branch of `schemaGenCmd`: the schema model that is written to the schema file. -/
def updateSchemaModel {μ : Type} [Inhabited μ] (schemaModel : Model μ)
    (bqColumns : List String) : Model μ :=
  (removeOutdatedColumnsFromSchema (addMissingColumnsToSchema schemaModel bqColumns).1
    bqColumns).1

/-- Modelled from the spec: the type `fs.FileType`, which is declared in the package `fs`, with
the values of `Type ∈ {Model, Test, Macro, Snapshot, Seed}`; the code names `fs.ModelFile`. -/
inductive FileType where
  | ModelFile
  | TestFile
  | MacroFile
  | SnapshotFile
  | SeedFile
  deriving DecidableEq

/-- The function `generateEmptySchemaFile`, on the path of the model; `FileVersion` is the
constant `properties.FileVersion`. -/
def generateEmptySchemaFile {μ : Type} (FileVersion : Nat) (modelPath : String) :
    String × SchemaFile μ :=
  let ymlPath := Replace modelPath ".sql" ".yml" 1
  let schemaFile : SchemaFile μ := { Version := 0, Models := [] }
  let schemaFile := { schemaFile with Version := FileVersion }
  (ymlPath, schemaFile)

/-- The path of the schema of a file as the per-node action of `isolateGraph` computes it:
`strings.TrimSuffix(file.Path, filepath.Ext(file.Path)) + ".yml"`. -/
def schemaFilePath (path : String) : String :=
  TrimSuffix path (Ext path) ++ ".yml"

/-! ## The file system that `cmd/isolateDAG.go` acts on

The functions of the Go package `os` are modelled on a file system that maps the place of an
entry, given by its elements from the root, to what the entry is.  A path string is resolved
as the operating system does it: element by element, from the root or from the working
directory of the process, with `..` for the parent directory, and with a symbolic link followed
wherever it is met on the way (at most `maxSymlinks` links, then `ELOOP`).  Permissions, which
could make a call fail for other reasons, are not modelled. -/

/-- What an entry is: a regular file and its contents, a directory, or a symbolic link and the
path it was given. -/
inductive Node where
  | file (contents : String)
  | dir
  | symlink (target : String)
  deriving DecidableEq

/-- The error numbers of the calls of `os` that are modelled. -/
inductive Errno where
  | ENOENT
  | EEXIST
  | ENOTDIR
  | EISDIR
  | ELOOP
  deriving DecidableEq

/-- Equality of the results of `os.Stat` can be decided. -/
instance statDecidableEq : DecidableEq (Except Errno Node)
  | Except.ok a, Except.ok b =>
    if h : a = b then isTrue (congrArg Except.ok h)
    else isFalse (fun e => h (Except.ok.inj e))
  | Except.error a, Except.error b =>
    if h : a = b then isTrue (congrArg Except.error h)
    else isFalse (fun e => h (Except.error.inj e))
  | Except.ok _, Except.error _ => isFalse (fun e => Except.noConfusion e)
  | Except.error _, Except.ok _ => isFalse (fun e => Except.noConfusion e)

/-- Go `os.IsNotExist(err)`. -/
def IsNotExist : Option Errno → Bool
  | some Errno.ENOENT => true
  | _ => false

/-- The file system: what is at each place.  The root, the empty list, is always a
directory. -/
abbrev FileSys := List String → Option Node

/-- What is at a place. -/
def FileSys.lookup (fs : FileSys) (p : List String) : Option Node :=
  if p = [] then some Node.dir else fs p

/-- The file system with `n` at the place `p`. -/
def FileSys.set (fs : FileSys) (p : List String) (n : Node) : FileSys :=
  fun q => if q = p then some n else fs q

/-- The elements of a slash-separated path: empty elements and `.` are dropped.  The second
argument is the element being read, reversed. -/
def componentsAux : List Char → List Char → List String
  | [], cur => if cur = [] ∨ cur = ['.'] then [] else [⟨cur.reverse⟩]
  | c :: cs, cur =>
    if c = '/' then
      if cur = [] ∨ cur = ['.'] then componentsAux cs [] else ⟨cur.reverse⟩ :: componentsAux cs []
    else componentsAux cs (c :: cur)

/-- The elements of a slash-separated path. -/
def components (path : String) : List String :=
  componentsAux path.data []

/-- Whether a path string is rooted. -/
def isRooted (path : String) : Bool :=
  decide (path.data.head? = some '/')

/-- The directory at which the resolution of a path string starts in a process with working
directory `wd`. -/
def startDir (wd : List String) (path : String) : List String :=
  if isRooted path then [] else wd

/-- The number of symbolic links that are followed in one resolution. -/
def maxSymlinks : Nat := 40

/-- The result of resolving a path: an entry and its place; nothing at a place in a directory
that is there, where an entry can be made; an error; or, on the way, a symbolic link met, with
the directory and the elements from which the resolution goes on. -/
inductive Walk where
  | found (place : List String) (n : Node)
  | missing (place : List String)
  | error (e : Errno)
  | link (cur rest : List String)
  deriving DecidableEq

/-- Resolves the elements `rest` from the directory `cur` up to the first symbolic link that
has to be followed.  A link that is the last element is followed only if `follow` is set. -/
def walkSeg (fs : FileSys) (follow : Bool) : List String → List String → Walk
  | cur, [] =>
    match fs.lookup cur with
    | some n => Walk.found cur n
    | none => Walk.error Errno.ENOENT
  | cur, c :: rest =>
    if c = ".." then walkSeg fs follow cur.dropLast rest
    else
      match fs.lookup (cur ++ [c]) with
      | none => if rest = [] then Walk.missing (cur ++ [c]) else Walk.error Errno.ENOENT
      | some (Node.file s) =>
        if rest = [] then Walk.found (cur ++ [c]) (Node.file s) else Walk.error Errno.ENOTDIR
      | some Node.dir => walkSeg fs follow (cur ++ [c]) rest
      | some (Node.symlink t) =>
        if rest = [] ∧ follow = false then Walk.found (cur ++ [c]) (Node.symlink t)
        else Walk.link (if isRooted t then [] else cur) (components t ++ rest)

/-- Resolves the elements `rest` from the directory `cur`, following at most `hops` symbolic
links. -/
def walk (fs : FileSys) (follow : Bool) : Nat → List String → List String → Walk
  | hops, cur, rest =>
    match walkSeg fs follow cur rest with
    | Walk.link cur1 rest1 =>
      match hops with
      | 0 => Walk.error Errno.ELOOP
      | h + 1 => walk fs follow h cur1 rest1
    | Walk.found q n => Walk.found q n
    | Walk.missing q => Walk.missing q
    | Walk.error e => Walk.error e

/-- Resolves a path string in a process with working directory `wd`; the empty path does not
exist. -/
def resolve (fs : FileSys) (wd : List String) (follow : Bool) (path : String) : Walk :=
  if path = "" then Walk.error Errno.ENOENT
  else walk fs follow maxSymlinks (startDir wd path) (components path)

/-- What `os.Stat` and `os.Lstat` return for the result of a resolution. -/
def statResult : Walk → Except Errno Node
  | Walk.found _ n => Except.ok n
  | Walk.missing _ => Except.error Errno.ENOENT
  | Walk.error e => Except.error e
  | Walk.link _ _ => Except.error Errno.ELOOP

/-- Go `os.Mkdir` on a path given by the directory at which its resolution starts and its
elements: a link that is the last element is not followed, the path must be free, and its
parent a directory. -/
def mkdirAt (fs : FileSys) (cur elems : List String) : Option Errno × FileSys :=
  match walk fs false maxSymlinks cur elems with
  | Walk.found _ _ => (some Errno.EEXIST, fs)
  | Walk.missing q => (none, fs.set q Node.dir)
  | Walk.error e => (some e, fs)
  | Walk.link _ _ => (some Errno.ELOOP, fs)

/-- Go `os.MkdirAll` on a path given by the directory at which its resolution starts and its
elements, the last element first: a path that `os.Stat` finds to be a directory is left alone,
one that it finds to be something else is an error, and otherwise the parent is made first and
then the directory itself; when `os.Mkdir` fails and `os.Lstat` finds a directory, that is no
error. -/
def mkdirAllRev (cur : List String) : List String → FileSys → Option Errno × FileSys
  | [], fs =>
    match statResult (walk fs true maxSymlinks cur []) with
    | Except.ok Node.dir => (none, fs)
    | Except.ok _ => (some Errno.ENOTDIR, fs)
    | Except.error e => (some e, fs)
  | x :: parent, fs =>
    let elems := (x :: parent).reverse
    match statResult (walk fs true maxSymlinks cur elems) with
    | Except.ok Node.dir => (none, fs)
    | Except.ok _ => (some Errno.ENOTDIR, fs)
    | Except.error _ =>
      match mkdirAllRev cur parent fs with
      | (some err, fs1) => (some err, fs1)
      | (none, fs1) =>
        match mkdirAt fs1 cur elems with
        | (none, fs2) => (none, fs2)
        | (some err, fs2) =>
          match walk fs2 false maxSymlinks cur elems with
          | Walk.found _ Node.dir => (none, fs2)
          | _ => (some err, fs2)

/-- The state of the process: the file system, the place of the working directory, and the
progress bar (how often `Increment` was called, and whether `Stop` was). -/
structure World where
  fs : FileSys
  wd : List String
  pbCount : Nat
  pbStopped : Bool

/-- Go `os.Stat(path)`: what the path leads to, all symbolic links followed. -/
def Stat (path : String) (w : World) : Except Errno Node :=
  statResult (resolve w.fs w.wd true path)

/-- Go `os.Mkdir(path, perm)`. -/
def Mkdir (path : String) (w : World) : Option Errno × World :=
  if path = "" then (some Errno.ENOENT, w)
  else
    let r := mkdirAt w.fs (startDir w.wd path) (components path)
    (r.1, { w with fs := r.2 })

/-- Go `os.MkdirAll(path, perm)`. -/
def MkdirAll (path : String) (w : World) : Option Errno × World :=
  if path = "" then (some Errno.ENOENT, w)
  else
    let r := mkdirAllRev (startDir w.wd path) (components path).reverse w.fs
    (r.1, { w with fs := r.2 })

/-- Go `os.Symlink(oldname, newname)`: a link that is the last element of `newname` is not
followed, `newname` must be free and its parent a directory; the link stores `oldname` as it is
given. -/
def Symlink (oldname newname : String) (w : World) : Option Errno × World :=
  match resolve w.fs w.wd false newname with
  | Walk.found _ _ => (some Errno.EEXIST, w)
  | Walk.missing q => (none, { w with fs := w.fs.set q (Node.symlink oldname) })
  | Walk.error e => (some e, w)
  | Walk.link _ _ => (some Errno.ELOOP, w)

/-- Go `os.Create(name)` followed by `Close` on the file: symbolic links are followed, a regular
file is truncated, and a missing file is created empty in a parent that is a directory. -/
def Create (name : String) (w : World) : Option Errno × World :=
  match resolve w.fs w.wd true name with
  | Walk.found q (Node.file _) => (none, { w with fs := w.fs.set q (Node.file "") })
  | Walk.found _ Node.dir => (some Errno.EISDIR, w)
  | Walk.found _ (Node.symlink _) => (some Errno.ELOOP, w)
  | Walk.missing q => (none, { w with fs := w.fs.set q (Node.file "") })
  | Walk.error e => (some e, w)
  | Walk.link _ _ => (some Errno.ELOOP, w)

/-- The elements of a cleaned path, as Go `filepath.Clean` makes them: an inner `..` goes away
together with the element before it, and a `..` at the start of a rooted path goes away.  The
first list is what has been kept, the last element first. -/
def cleanElems (rooted : Bool) : List String → List String → List String
  | kept, [] => kept.reverse
  | kept, e :: rest =>
    if e = ".." then
      match kept with
      | [] => if rooted then cleanElems rooted [] rest else cleanElems rooted [".."] rest
      | top :: below =>
        if top = ".." then cleanElems rooted (".." :: top :: below) rest
        else cleanElems rooted below rest
    else cleanElems rooted (e :: kept) rest

/-- Go `filepath.Clean(path)`: the cleaned elements of the path with one separator between
them, after a separator if the path is rooted; `.` if nothing is left of a path that is not
rooted. -/
def Clean (path : String) : String :=
  let elems := "/".intercalate (cleanElems (isRooted path) [] (components path))
  if isRooted path then "/" ++ elems
  else if elems = "" then "." else elems

/-- Go `filepath.Join(a, b)`: the non-empty ones of the two with a separator between them,
cleaned; the empty string if both are empty. -/
def Join (a b : String) : String :=
  if a = "" then (if b = "" then "" else Clean b)
  else if b = "" then Clean a
  else Clean (a ++ "/" ++ b)

/-- Drops the last element of a path that is read backwards: what is left starts at the last
separator. -/
def dirAux : List Char → List Char
  | [] => []
  | c :: cs => if c = '/' then c :: cs else dirAux cs

/-- Go `filepath.Dir(path)`: the path up to its last separator, cleaned. -/
def Dir (path : String) : String :=
  Clean ⟨(dirAux path.data.reverse).reverse⟩

/-- The call `pb.Increment()` on the progress bar: one more call is counted. -/
def World.pbIncrement (w : World) : World :=
  { w with pbCount := w.pbCount + 1 }

/-- The call `pb.Stop()` on the progress bar: the call is recorded. -/
def World.pbStop (w : World) : World :=
  { w with pbStopped := true }

/-! ## `cmd/isolateDAG.go` -/

/-- The type `fs.File`, as far as the per-node action reads it: the type, name and path of the
file, its schema if it has one, and the result of `Upstreams()`. -/
inductive File (μ : Type) where
  | mk (type : FileType) (Name : String) (Path : String) (Schema : Option (Model μ))
      (upstreams : List (File μ))

/-- The field `Type` of a file. -/
def File.Type {μ : Type} : File μ → FileType
  | File.mk t _ _ _ _ => t

/-- The field `Name` of a file. -/
def File.Name {μ : Type} : File μ → String
  | File.mk _ n _ _ _ => n

/-- The field `Path` of a file. -/
def File.Path {μ : Type} : File μ → String
  | File.mk _ _ p _ _ => p

/-- The field `Schema` of a file. -/
def File.Schema {μ : Type} : File μ → Option (Model μ)
  | File.mk _ _ _ s _ => s

/-- The method `Upstreams()` of a file. -/
def File.Upstreams {μ : Type} : File μ → List (File μ)
  | File.mk _ _ _ _ us => us

/-- What the closures of `isolateGraph` capture: the variables `cwd` and `isolationDir`, the
graph through its method `Contains`, and the variable `err` of `isolateGraph`. -/
structure Env (μ : Type) where
  cwd : String
  isolationDir : String
  graphContains : File μ → Bool
  err : Option Errno

/-- The closure `symLink` of `isolateGraph`. -/
def symLink {μ : Type} (env : Env μ) (pathInProject : String) (w : World) :
    Option Errno × World :=
  let fullOrgPath := Join env.cwd pathInProject
  let symlinkedPath := Join env.isolationDir pathInProject
  match MkdirAll (Dir symlinkedPath) w with
  | (some err, w1) => (some err, w1)
  | (none, w1) =>
    match Symlink fullOrgPath symlinkedPath w1 with
    | (some err, w2) => (some err, w2)
    | (none, w2) => (none, w2)

/-- The closure `touch` of `isolateGraph`. -/
def touch {μ : Type} (env : Env μ) (pathInProject : String) (w : World) :
    Option Errno × World :=
  let symlinkedPath := Join env.isolationDir pathInProject
  match MkdirAll (Dir symlinkedPath) w with
  | (some err, w1) => (some err, w1)
  | (none, w1) =>
    match Stat symlinkedPath w1 with
    | Except.error err =>
      if IsNotExist (some err) then Create symlinkedPath w1 else (none, w1)
    | Except.ok _ => (none, w1)

/-- The loop over `file.Upstreams()` in the per-node action.  The result is `some r` when the
loop returns `r` from the action, and `none` when it runs to its end. -/
def upstreamLoop {μ : Type} (env : Env μ) :
    List (File μ) → World → Option (Option Errno) × World
  | [], w => (none, w)
  | upstream :: rest, w =>
    if env.graphContains upstream then upstreamLoop env rest w
    else
      match upstream.Type with
      | FileType.ModelFile =>
        match touch env upstream.Path w with
        | (some err, w1) => (some (some err), w1.pbStop)
        | (none, w1) => upstreamLoop env rest w1
      | _ => (some env.err, w.pbStop)

/-- The block `Symlink the schema if it exists` of the per-node action: `os.Stat(schemaFile)`
is called first, and the schema is linked when the file has a schema and `os.Stat` gave no
error.  The result is the error of `symLink`, if it was called and failed. -/
def symLinkSchema {μ : Type} (env : Env μ) (file : File μ) (w : World) :
    Option Errno × World :=
  let schemaFile := schemaFilePath file.Path
  let err : Option Errno :=
    match Stat schemaFile w with
    | Except.error e => some e
    | Except.ok _ => none
  if file.Schema.isSome ∧ err = none then symLink env schemaFile w else (none, w)

/-- The per-node action that `isolateGraph` passes to `graph.Execute`.  What it prints is not
part of the state. -/
def isolateAction {μ : Type} (env : Env μ) (file : File μ) (w : World) :
    Option Errno × World :=
  match symLink env file.Path w with
  | (some err, w1) => (some err, w1.pbStop)
  | (none, w1) =>
    match symLinkSchema env file w1 with
    | (some err, w2) => (some err, w2.pbStop)
    | (none, w2) =>
      match upstreamLoop env file.Upstreams w2 with
      | (some res, w3) => (res, w3)
      | (none, w3) => (none, w3.pbIncrement)

/-- Go `os.Getwd()`: the rooted path of the working directory, and an error when the directory
is not there any more. -/
def Getwd (w : World) : String × Option Errno :=
  match w.fs.lookup w.wd with
  | some Node.dir => ("/" ++ "/".intercalate w.wd, none)
  | _ => ("", some Errno.ENOENT)

/-- Go `ioutil.TempDir(dir, prefix)`: makes the directory `dir/prefix<name>`, where `name` is the
random ending of the last try, and returns its path. -/
def TempDir (dir pfx name : String) (w : World) : (String × Option Errno) × World :=
  let path := Join dir (pfx ++ name)
  match Mkdir path w with
  | (none, w1) => ((path, none), w1)
  | (some err, w1) => (("", some err), w1)

/-- The slice `projectFiles` of `isolateGraph`; `modelGroupsFile` is
`config.GlobalCfg.ModelGroupsFile`. -/
def projectFiles (modelGroupsFile : String) : List String :=
  let projectFiles := ["dbt_project.yml", "ddbt_config.yml", "profiles", "debug", "docs",
    "dbt_modules"]
  if modelGroupsFile ≠ "" then projectFiles ++ [modelGroupsFile] else projectFiles

/-- The loop of `isolateGraph` over `projectFiles`: an error is the exit code of the process. -/
def projectFilesLoop {μ : Type} (env : Env μ) : List String → World → Except Nat World
  | [], w => Except.ok w
  | file :: rest, w =>
    match symLink env file w with
    | (err, w1) =>
      if err ≠ none ∧ IsNotExist err = false then Except.error 1
      else projectFilesLoop env rest w1

/-- The function `isolateGraph` up to its call of `graph.Execute`: either the exit code of the
process, or what the per-node action captures together with the state in which `graph.Execute`
is called.  `tmp` is `os.TempDir()` and `name` the random ending of the isolation directory.
The variable `err` holds the error of `ioutil.TempDir` and then that of `os.Getwd`; the errors
in the loop over the project files are variables of their own, and `err` is next assigned when
`graph.Execute` has returned. -/
def isolateGraph {μ : Type} (graphContains : File μ → Bool) (tmp name modelGroupsFile : String)
    (w : World) : Except Nat (Env μ × World) :=
  let w := { w with pbCount := 0, pbStopped := false }
  match TempDir tmp "isolated-dag-" name w with
  | ((isolationDir, err), w1) =>
    if err ≠ none then Except.error 1
    else
      match Getwd w1 with
      | (cwd, err) =>
        if err ≠ none then Except.error 1
        else
          let env : Env μ :=
            { cwd := cwd, isolationDir := isolationDir, graphContains := graphContains,
              err := err }
          match projectFilesLoop env (projectFiles modelGroupsFile) w1 with
          | Except.error code => Except.error code
          | Except.ok w2 => Except.ok (env, w2)

/-! ## Words of the properties -/

/-- A list without its repetitions: each value is kept where it occurs first. -/
def firstOccurrences : List String → List String
  | [] => []
  | x :: xs => x :: (firstOccurrences xs).filter (fun y => decide (y ≠ x))

/-- A column that has a name and nothing else: every other field has its zero value. -/
def nameOnly {μ : Type} [Inhabited μ] (name : String) : Column μ :=
  { Name := name, rest := default }

/-- The names of the columns of a schema model, in order. -/
def columnNames {μ : Type} (m : Model μ) : List String :=
  m.Columns.map Column.Name

/-- The names that `addMissingColumnsToSchema` has to add: the names of BigQuery that the
schema model lacks, each one once, where it occurs first. -/
def missingNames {μ : Type} (m : Model μ) (bqColumns : List String) : List String :=
  firstOccurrences (bqColumns.filter (fun n => !FindColumnInSchema n m))

/-- One file system extends another: what was at a place is still there, unchanged. -/
def Extends (fs fs' : FileSys) : Prop :=
  ∀ p, fs.lookup p ≠ none → fs'.lookup p = fs.lookup p

/-- The function `isolateGraph` run up to its call of `graph.Execute`, and then one call of the
per-node action, on `file`: the exit code of the process, or the result of the action and the
state after it. -/
def isolateOne {μ : Type} (graphContains : File μ → Bool) (tmp name modelGroupsFile : String)
    (file : File μ) (w : World) : Except Nat (Option Errno × World) :=
  match isolateGraph graphContains tmp name modelGroupsFile w with
  | Except.error code => Except.error code
  | Except.ok (env, w1) => Except.ok (isolateAction env file w1)

/-! ## Sample projects -/

/-- A project in `/proj` with a model and its schema, a seed and a macro, and an empty `/tmp`. -/
def projectWorld : World :=
  { fs := fun p =>
      if p = ["proj"] ∨ p = ["proj", "models"] ∨ p = ["proj", "data"] ∨
          p = ["proj", "macros"] ∨ p = ["tmp"] then some Node.dir
      else if p = ["proj", "models", "orders.sql"] then
        some (Node.file "select * from countries")
      else if p = ["proj", "models", "orders.yml"] then some (Node.file "version: 2")
      else if p = ["proj", "data", "countries.csv"] then some (Node.file "code,name")
      else if p = ["proj", "macros", "cents.sql"] then some (Node.file "select 100")
      else none
    wd := ["proj"]
    pbCount := 0
    pbStopped := false }

/-- A graph that contains the model `orders` and nothing else. -/
def onlyOrders : File Unit → Bool :=
  fun f => decide (f.Name = "orders")

/-- The schema of the model `orders`. -/
def ordersSchema : Model Unit :=
  { Name := "orders", Description := "One row for each order", Columns := [] }

/-- The model `orders`, which has a schema and uses the seed `countries`. -/
def ordersWithSeed : File Unit :=
  File.mk FileType.ModelFile "orders" "models/orders.sql" (some ordersSchema)
    [File.mk FileType.SeedFile "countries" "data/countries.csv" none []]

/-- The model `orders`, which uses the macro `cents`. -/
def ordersWithMacro : File Unit :=
  File.mk FileType.ModelFile "orders" "models/orders.sql" none
    [File.mk FileType.MacroFile "cents" "macros/cents.sql" none []]

section SchemaGen

variable {μ : Type}

theorem findColumnLoop_iff (column : String) (cols : List (Column μ)) :
    findColumnLoop column cols = true ↔ column ∈ cols.map Column.Name := by
  induction cols with
  | nil => simp [findColumnLoop]
  | cons c cs ih =>
    by_cases h : c.Name = column
    · simp [findColumnLoop, h]
    · have h2 : ¬ column = c.Name := fun e => h e.symm
      simp [findColumnLoop, h, h2, ih]

theorem FindColumnInSchema_iff (column : String) (m : Model μ) :
    FindColumnInSchema column m = true ↔ column ∈ columnNames m :=
  findColumnLoop_iff column m.Columns

theorem FindSchemaColumnInSlice_iff (c : Column μ) (bq : List String) :
    FindSchemaColumnInSlice c bq = true ↔ c.Name ∈ bq := by
  induction bq with
  | nil => simp [FindSchemaColumnInSlice]
  | cons b bs ih =>
    by_cases h : c.Name = b
    · simp [FindSchemaColumnInSlice, h]
    · simp [FindSchemaColumnInSlice, h, ih]

theorem mem_firstOccurrences (a : String) (l : List String) :
    a ∈ firstOccurrences l ↔ a ∈ l := by
  induction l with
  | nil => simp [firstOccurrences]
  | cons x xs ih =>
    by_cases h : a = x
    · simp [firstOccurrences, h]
    · simp [firstOccurrences, h, ih]

theorem firstOccurrences_nodup (l : List String) : (firstOccurrences l).Nodup := by
  induction l with
  | nil => simp [firstOccurrences]
  | cons x xs ih =>
    simp only [firstOccurrences, List.nodup_cons]
    exact ⟨by simp, ih.filter _⟩

theorem firstOccurrences_filter (q : String → Bool) (l : List String) :
    (firstOccurrences l).filter q = firstOccurrences (l.filter q) := by
  induction l with
  | nil => simp [firstOccurrences]
  | cons x xs ih =>
    by_cases hq : q x = true
    · simp only [firstOccurrences, List.filter_cons, hq, if_true]
      rw [List.filter_filter, ← ih, List.filter_filter]
      congr 1
      apply List.filter_congr
      intro y _
      exact Bool.and_comm _ _
    · have hq2 : q x = false := by simpa using hq
      simp only [firstOccurrences, List.filter_cons, hq2]
      simp only [Bool.false_eq_true, if_false]
      rw [List.filter_filter, ← ih]
      apply List.filter_congr
      intro y _
      by_cases hy : y = x
      · subst hy; simp [hq2]
      · simp [hy]

theorem addMissing_fold [Inhabited μ] (bq : List String) (acc : Model μ × List String) :
    (bq.foldl addMissingStep acc).1.Columns =
        acc.1.Columns ++ (missingNames acc.1 bq).map nameOnly ∧
      (bq.foldl addMissingStep acc).1.Name = acc.1.Name ∧
      (bq.foldl addMissingStep acc).1.Description = acc.1.Description ∧
      (bq.foldl addMissingStep acc).2 = acc.2 ++ missingNames acc.1 bq := by
  induction bq generalizing acc with
  | nil => simp [missingNames, firstOccurrences]
  | cons b rest ih =>
    rw [List.foldl_cons]
    by_cases hb : FindColumnInSchema b acc.1 = true
    · have hstep : addMissingStep acc b = acc := by simp [addMissingStep, hb]
      have hmiss : missingNames acc.1 (b :: rest) = missingNames acc.1 rest := by
        simp [missingNames, List.filter_cons, hb]
      rw [hstep, hmiss]
      exact ih acc
    · have hstep : addMissingStep acc b =
          ({ acc.1 with Columns := acc.1.Columns ++ [nameOnly b] }, acc.2 ++ [b]) := by
        simp [addMissingStep, hb, nameOnly]
      have hfind : ∀ n, FindColumnInSchema n
          ({ acc.1 with Columns := acc.1.Columns ++ [nameOnly b] } : Model μ) =
          (FindColumnInSchema n acc.1 || decide (n = b)) := by
        intro n
        rw [Bool.eq_iff_iff]
        simp [FindColumnInSchema_iff, columnNames, nameOnly]
      have hmiss : missingNames acc.1 (b :: rest) =
          b :: missingNames ({ acc.1 with Columns := acc.1.Columns ++ [nameOnly b] } : Model μ)
            rest := by
        have hb2 : FindColumnInSchema b acc.1 = false := by simpa using hb
        simp only [missingNames, List.filter_cons, hb2, Bool.not_false, if_true,
          firstOccurrences]
        rw [firstOccurrences_filter, List.filter_filter]
        congr 2
        apply List.filter_congr
        intro n _
        rw [hfind n]
        by_cases hn : n = b <;> simp [hn]
      rw [hstep, hmiss]
      obtain ⟨h1, h2, h3, h4⟩ := ih
        (({ acc.1 with Columns := acc.1.Columns ++ [nameOnly b] } : Model μ), acc.2 ++ [b])
      refine ⟨?_, ?_, ?_, ?_⟩
      · rw [h1]; simp
      · rw [h2]
      · rw [h3]
      · rw [h4]; simp

theorem removeOutdated_fold (bq : List String) (cols : List (Column μ))
    (acc : List String × List (Column μ)) :
    (cols.foldl (removeOutdatedStep bq) acc).2 =
        acc.2 ++ cols.filter (fun c => decide (c.Name ∈ bq)) ∧
      (cols.foldl (removeOutdatedStep bq) acc).1 =
        acc.1 ++ (cols.filter (fun c => decide (c.Name ∉ bq))).map Column.Name := by
  induction cols generalizing acc with
  | nil => simp
  | cons c cs ih =>
    rw [List.foldl_cons]
    by_cases hc : c.Name ∈ bq
    · have hstep : removeOutdatedStep bq acc c = (acc.1, acc.2 ++ [c]) := by
        simp [removeOutdatedStep, (FindSchemaColumnInSlice_iff c bq).2 hc]
      rw [hstep]
      obtain ⟨h1, h2⟩ := ih (acc.1, acc.2 ++ [c])
      exact ⟨by rw [h1]; simp [List.filter_cons, hc], by rw [h2]; simp [List.filter_cons, hc]⟩
    · have hf : ¬ FindSchemaColumnInSlice c bq = true :=
        fun h => hc ((FindSchemaColumnInSlice_iff c bq).1 h)
      have hstep : removeOutdatedStep bq acc c = (acc.1 ++ [c.Name], acc.2) := by
        simp [removeOutdatedStep, hf]
      rw [hstep]
      obtain ⟨h1, h2⟩ := ih (acc.1 ++ [c.Name], acc.2)
      exact ⟨by rw [h1]; simp [List.filter_cons, hc], by rw [h2]; simp [List.filter_cons, hc]⟩

theorem missingNames_eq (schemaModel : Model μ) (bqColumns : List String) :
    missingNames schemaModel bqColumns =
      firstOccurrences (bqColumns.filter (fun n => decide (n ∉ columnNames schemaModel))) := by
  unfold missingNames
  congr 1
  apply List.filter_congr
  intro n _
  by_cases hn : n ∈ columnNames schemaModel
  · simp [hn, (FindColumnInSchema_iff n schemaModel).2 hn]
  · have hf : FindColumnInSchema n schemaModel = false := by
      rw [← Bool.not_eq_true, FindColumnInSchema_iff]
      exact hn
    simp [hn, hf]

theorem addMissing_mem [Inhabited μ] (schemaModel : Model μ) (bqColumns : List String)
    (n : String) (hn : n ∈ bqColumns) :
    n ∈ columnNames (addMissingColumnsToSchema schemaModel bqColumns).1 := by
  obtain ⟨h1, -⟩ := addMissing_fold bqColumns (schemaModel, [])
  unfold columnNames addMissingColumnsToSchema
  rw [h1, List.map_append]
  by_cases hin : n ∈ columnNames schemaModel
  · exact List.mem_append_left _ hin
  · apply List.mem_append_right
    rw [List.map_map]
    have hmem : n ∈ missingNames schemaModel bqColumns := by
      rw [missingNames_eq, mem_firstOccurrences]
      simp [hn, hin]
    exact List.mem_map.2 ⟨n, hmem, rfl⟩

/-- C3: `addMissingColumnsToSchema` keeps the columns of the schema model as they are, as a
prefix, and appends one name-only column for each distinct name of BigQuery that the schema
model did not have, in the order in which these names occur first; the name and the description
of the model stay, `columnsAdded` lists the appended names, and afterwards `FindColumnInSchema`
finds every name of BigQuery. -/
theorem addMissingColumnsToSchema_appends [Inhabited μ] (schemaModel : Model μ)
    (bqColumns : List String) :
    (addMissingColumnsToSchema schemaModel bqColumns).1.Columns =
        schemaModel.Columns ++
          (firstOccurrences
            (bqColumns.filter (fun n => decide (n ∉ columnNames schemaModel)))).map nameOnly ∧
      (addMissingColumnsToSchema schemaModel bqColumns).1.Name = schemaModel.Name ∧
      (addMissingColumnsToSchema schemaModel bqColumns).1.Description =
        schemaModel.Description ∧
      (addMissingColumnsToSchema schemaModel bqColumns).2 =
        firstOccurrences (bqColumns.filter (fun n => decide (n ∉ columnNames schemaModel))) ∧
      ∀ n ∈ bqColumns,
        FindColumnInSchema n (addMissingColumnsToSchema schemaModel bqColumns).1 = true := by
  obtain ⟨h1, h2, h3, h4⟩ := addMissing_fold bqColumns (schemaModel, [])
  rw [missingNames_eq] at h1 h4
  refine ⟨h1, h2, h3, by simpa using h4, ?_⟩
  intro n hn
  rw [FindColumnInSchema_iff]
  exact addMissing_mem schemaModel bqColumns n hn

/-- C4: `removeOutdatedColumnsFromSchema` sets the columns to the original columns whose name
occurs in the BigQuery list, in their original order and with all their fields: the result is
the original list filtered by that test, so an original column is dropped exactly when its name
is not in the list.  The name and the description of the model stay, and `columnsRemoved` lists
the names of the dropped columns. -/
theorem removeOutdatedColumnsFromSchema_filters (schemaModel : Model μ)
    (bqColumns : List String) :
    (removeOutdatedColumnsFromSchema schemaModel bqColumns).1.Columns =
        schemaModel.Columns.filter (fun c => decide (c.Name ∈ bqColumns)) ∧
      (removeOutdatedColumnsFromSchema schemaModel bqColumns).1.Columns.Sublist
        schemaModel.Columns ∧
      (∀ c ∈ schemaModel.Columns,
        (c ∉ (removeOutdatedColumnsFromSchema schemaModel bqColumns).1.Columns ↔
          c.Name ∉ bqColumns)) ∧
      (removeOutdatedColumnsFromSchema schemaModel bqColumns).1.Name = schemaModel.Name ∧
      (removeOutdatedColumnsFromSchema schemaModel bqColumns).1.Description =
        schemaModel.Description ∧
      (removeOutdatedColumnsFromSchema schemaModel bqColumns).2 =
        (schemaModel.Columns.filter (fun c => decide (c.Name ∉ bqColumns))).map Column.Name := by
  obtain ⟨h1, h2⟩ := removeOutdated_fold bqColumns schemaModel.Columns ([], [])
  have hcols : (removeOutdatedColumnsFromSchema schemaModel bqColumns).1.Columns =
      schemaModel.Columns.filter (fun c => decide (c.Name ∈ bqColumns)) := by
    simpa [removeOutdatedColumnsFromSchema] using h1
  refine ⟨hcols, ?_, ?_, rfl, rfl, ?_⟩
  · rw [hcols]
    exact List.filter_sublist _
  · intro c hc
    rw [hcols, List.mem_filter]
    simp [hc]
  · simpa [removeOutdatedColumnsFromSchema] using h2

/-- C2: in the update branch of `schemaGenCmd`, after `addMissingColumnsToSchema` and then
`removeOutdatedColumnsFromSchema`, a name is the name of a column of the schema model exactly
when it is in the BigQuery column list. -/
theorem updateSchemaModel_names [Inhabited μ] (schemaModel : Model μ)
    (bqColumns : List String) (n : String) :
    n ∈ columnNames (updateSchemaModel schemaModel bqColumns) ↔ n ∈ bqColumns := by
  have hfind : ∀ n ∈ bqColumns,
      FindColumnInSchema n (addMissingColumnsToSchema schemaModel bqColumns).1 = true :=
    fun n hn => (FindColumnInSchema_iff n _).2 (addMissing_mem schemaModel bqColumns n hn)
  obtain ⟨hrem, -⟩ := removeOutdated_fold bqColumns
    (addMissingColumnsToSchema schemaModel bqColumns).1.Columns ([], [])
  simp only [List.nil_append] at hrem
  have hcols : (updateSchemaModel schemaModel bqColumns).Columns =
      (addMissingColumnsToSchema schemaModel bqColumns).1.Columns.filter
        (fun c => decide (c.Name ∈ bqColumns)) := hrem
  unfold columnNames
  rw [hcols, List.mem_map]
  constructor
  · rintro ⟨c, hc, rfl⟩
    rw [List.mem_filter] at hc
    simpa using hc.2
  · intro hn
    have h := hfind n hn
    rw [FindColumnInSchema_iff, columnNames, List.mem_map] at h
    obtain ⟨c, hc, rfl⟩ := h
    exact ⟨c, List.mem_filter.2 ⟨hc, by simpa using hn⟩, rfl⟩

end SchemaGen

/-! ## Properties of the file system model -/

theorem lookup_nil (fs : FileSys) : fs.lookup [] = some Node.dir := by
  simp [FileSys.lookup]

theorem lookup_set_of_none (fs : FileSys) (p q : List String) (n : Node)
    (hp : fs.lookup p = none) :
    (fs.set p n).lookup q = if q = p then some n else fs.lookup q := by
  have hp0 : p ≠ [] := by
    intro h
    rw [h, lookup_nil] at hp
    exact Option.noConfusion hp
  by_cases hq : q = []
  · subst hq
    have h1 : ¬ [] = p := fun h => hp0 h.symm
    simp [h1, FileSys.lookup]
  · simp [hq, FileSys.lookup, FileSys.set]

theorem Extends.set (fs : FileSys) (q : List String) (n : Node) (hq : fs.lookup q = none) :
    Extends fs (fs.set q n) := by
  intro p hp
  rw [lookup_set_of_none fs q p n hq]
  have : ¬ p = q := fun h => hp (h ▸ hq)
  simp [this]

/-- The per-node action is built with `err` equal to `nil`: `isolateGraph` comes to
`graph.Execute` only when `ioutil.TempDir` and `os.Getwd` gave no error. -/
theorem isolateGraph_err {μ : Type} (graphContains : File μ → Bool)
    (tmp name modelGroupsFile : String) (w : World) (env : Env μ) (w1 : World)
    (h : isolateGraph graphContains tmp name modelGroupsFile w = Except.ok (env, w1)) :
    env.err = none := by
  unfold isolateGraph at h
  simp only at h
  split at h
  · exact Except.noConfusion h
  · split at h
    · exact Except.noConfusion h
    · rename_i herr
      split at h
      · exact Except.noConfusion h
      · injection h with h
        injection h with h1 h2
        rw [← h1]
        simpa using herr

/-- C1: the model `orders` uses the seed `countries`, which the graph does not contain and which
is not a model.  The per-node action that `isolateGraph` builds links the file of `orders` and
its schema, stops the progress bar, and returns `nil`: it reports success where a failure is
due. -/
theorem isolateAction_unexpected_upstream_returns_nil :
    (isolateOne onlyOrders "/tmp" "042" "" ordersWithSeed projectWorld).toOption.map
        (fun r => (r.1, r.2.pbStopped,
          r.2.fs.lookup ["tmp", "isolated-dag-042", "models", "orders.sql"],
          r.2.fs.lookup ["tmp", "isolated-dag-042", "models", "orders.yml"])) =
      some (none, true, some (Node.symlink "/proj/models/orders.sql"),
        some (Node.symlink "/proj/models/orders.yml")) := by
  decide

/-- C7: the model `orders` uses the macro `cents`, which the graph does not contain.  The
per-node action that `isolateGraph` builds returns `nil`, and the progress bar, which
`isolateGraph` starts at zero, has not been incremented. -/
theorem isolateAction_success_without_increment :
    (isolateOne onlyOrders "/tmp" "042" "" ordersWithMacro projectWorld).toOption.map
        (fun r => (r.1, r.2.pbCount)) = some (none, 0) := by
  decide

theorem extAux_sql (base : List Char) :
    extAux (base ++ ['.', 's', 'q', 'l']).reverse [] = ['.', 's', 'q', 'l'] := by
  simp [extAux]

/-- For a path that ends in `.sql`, the per-node action of `isolateGraph` looks for the schema
at the path with this ending replaced by `.yml`. -/
theorem schemaFilePath_sql (base : String) :
    schemaFilePath (base ++ ".sql") = base ++ ".yml" := by
  have hdata : (base ++ ".sql").data = base.data ++ ['.', 's', 'q', 'l'] := by
    rw [String.data_append]
  have hext : Ext (base ++ ".sql") = ".sql" := by
    unfold Ext
    rw [hdata, extAux_sql]
  have hsuf : (['.', 's', 'q', 'l'] : List Char).isSuffixOf (base.data ++ ['.', 's', 'q', 'l'])
      = true := by
    rw [List.isSuffixOf_iff_suffix]
    exact List.suffix_append _ _
  have htrim : TrimSuffix (base ++ ".sql") ".sql" = base := by
    unfold TrimSuffix
    rw [hdata]
    have h2 : (".sql" : String).data = ['.', 's', 'q', 'l'] := rfl
    rw [h2, if_pos hsuf]
    apply String.ext
    simp
  unfold schemaFilePath
  rw [hext, htrim]

theorem replaceAux_zero (old new : List Char) (k : Nat) (s : List Char) :
    replaceAux old new 0 k s = s.drop k := by
  induction s generalizing k with
  | nil => cases k <;> simp [replaceAux]
  | cons c cs ih => cases k <;> simp [replaceAux, ih]

theorem replaceAux_at (old new pre post : List Char)
    (hfirst : ∀ k, k < pre.length → old.isPrefixOf ((pre ++ old ++ post).drop k) = false) :
    replaceAux old new 1 0 (pre ++ old ++ post) = pre ++ new ++ post := by
  induction pre with
  | nil =>
    simp only [List.nil_append]
    cases old with
    | nil =>
      cases post with
      | nil => simp [replaceAux]
      | cons c cs => simp [replaceAux, replaceAux_zero]
    | cons o os =>
      have hpre : (o :: os).isPrefixOf (o :: (os ++ post)) = true := by
        rw [List.isPrefixOf_iff_prefix]
        exact List.prefix_append (o :: os) post
      have e : o :: os ++ post = o :: (os ++ post) := rfl
      rw [e, replaceAux, if_pos hpre]
      simp [replaceAux_zero]
  | cons a pre ih =>
    have h0 := hfirst 0 (by simp)
    simp only [List.drop_zero, List.cons_append] at h0
    have e : a :: pre ++ old ++ post = a :: (pre ++ old ++ post) := rfl
    have e2 : a :: pre ++ new ++ post = a :: (pre ++ new ++ post) := rfl
    rw [e, e2, replaceAux, h0]
    simp only [Bool.false_eq_true, if_false]
    congr 1
    apply ih
    intro k hk
    have := hfirst (k + 1) (by simpa using hk)
    simpa using this

/-- When `.sql` occurs in the path of the model at its end and nowhere before, the path that
`generateEmptySchemaFile` returns is the path with this ending replaced by `.yml`, which is the
path of the schema in the per-node action of `isolateGraph`; the schema file has the version
`properties.FileVersion` and no models. -/
theorem generateEmptySchemaFile_single_sql {μ : Type} (FileVersion : Nat) (base : String)
    (hfirst : ∀ k, k < base.data.length →
      (['.', 's', 'q', 'l'] : List Char).isPrefixOf ((base.data ++ ['.', 's', 'q', 'l']).drop k)
        = false) :
    (generateEmptySchemaFile FileVersion (base ++ ".sql") : String × SchemaFile μ) =
      (schemaFilePath (base ++ ".sql"), { Version := FileVersion, Models := [] }) := by
  rw [schemaFilePath_sql]
  unfold generateEmptySchemaFile Replace
  simp only
  refine Prod.ext (String.ext ?_) rfl
  have hdata : (base ++ ".sql").data = base.data ++ ['.', 's', 'q', 'l'] ++ [] := by
    rw [String.data_append, List.append_nil]
  have h2 : (".sql" : String).data = ['.', 's', 'q', 'l'] := rfl
  have h3 : (".yml" : String).data = ['.', 'y', 'm', 'l'] := rfl
  show replaceAux (".sql" : String).data (".yml" : String).data 1 0 (base ++ ".sql").data = _
  rw [hdata, h2, h3, replaceAux_at _ _ _ _ (by simpa using hfirst)]
  rw [String.data_append, h3, List.append_nil]

/-- C5: for the model at `models/etl.sqlite/users.sql`, `generateEmptySchemaFile` returns the
path `models/etl.ymlite/users.sql`: it replaces the first `.sql` of the path, not its ending.
The per-node action of `isolateGraph` has the schema of this model at
`models/etl.sqlite/users.yml`. -/
theorem generateEmptySchemaFile_replaces_first_sql :
    (generateEmptySchemaFile 2 "models/etl.sqlite/users.sql" : String × SchemaFile Unit).1 =
        "models/etl.ymlite/users.sql" ∧
      schemaFilePath "models/etl.sqlite/users.sql" = "models/etl.sqlite/users.yml" := by
  decide

/-! ## Properties of `schemaTestMacros/test_not_null_macro.go` -/

/-- C8: for every project, dataset, model and column name, `Test_not_null_macro` returns the
query `select count(*) \n\tfrom <project>.<dataset>.<model> where <column_name> is null\n\t`
and the test name `not_null`; the result is a function of the four arguments. -/
theorem Test_not_null_macro_eq (project dataset model column_name : String) :
    Test_not_null_macro project dataset model column_name =
      ("select count(*) \n\tfrom " ++ project ++ "." ++ dataset ++ "." ++ model ++ " where "
        ++ column_name ++ " is null\n\t", "not_null") := by
  have hfmt : ("select count(*) \n\tfrom %s.%s.%s where %s is null\n\t" : String).data =
      "select count(*) \n\tfrom ".data ++ '%' :: 's' :: '.' :: '%' :: 's' :: '.' :: '%' :: 's' ::
        " where ".data ++ '%' :: 's' :: " is null\n\t".data := by decide
  unfold Test_not_null_macro Sprintf
  refine Prod.ext (String.ext ?_) rfl
  rw [hfmt]
  simp [sprintfAux, String.data_append]

end Ddbt
